import Mathlib

/-!
Verification of the supertonic text-to-speech core (crates/core) against its
natural-language specification.  The Rust sources are shallowly embedded:
strings become `List Char` (Rust `&str` iterated by `char`), `f32` values
become `ℚ` (the claims under scrutiny concern slicing, masking and
concatenation structure, not floating-point rounding error), `usize` becomes
`ℕ`, fallible code returns explicit result types, and the external ONNX
engine, the `serde_json` parser and the file system are parameters of the
definitions that call them.
-/

namespace Supertonic

/-- Character constants that are awkward as literals: double quote (U+0022),
apostrophe (U+0027), backtick (U+0060) and backslash (U+005C). -/
def quoteC : Char := Char.ofNat 34

def apoC : Char := Char.ofNat 39

def btC : Char := Char.ofNat 96

def bslashC : Char := Char.ofNat 92

def nlC : Char := Char.ofNat 10

/-- Unicode White_Space property, as decided by Rust `char::is_whitespace`
and by the `regex` crate's `\s` class (text.rs uses both). -/
def isWs (c : Char) : Bool :=
  let n := c.toNat
  n == 0x20 || (0x09 ≤ n && n ≤ 0x0D) || n == 0x85 || n == 0xA0 || n == 0x1680 ||
  (0x2000 ≤ n && n ≤ 0x200A) || n == 0x2028 || n == 0x2029 || n == 0x202F ||
  n == 0x205F || n == 0x3000

/-- The emoji code-point ranges removed by the first regex of
`preprocess_text` (text.rs line 66).  Replacing a `+`-run of this class by
the empty string is the same as deleting every character of the class. -/
def isEmoji (c : Char) : Bool :=
  let n := c.toNat
  (0x1F600 ≤ n && n ≤ 0x1F64F) || (0x1F300 ≤ n && n ≤ 0x1F5FF) ||
  (0x1F680 ≤ n && n ≤ 0x1F6FF) || (0x1F700 ≤ n && n ≤ 0x1F77F) ||
  (0x1F780 ≤ n && n ≤ 0x1F7FF) || (0x1F800 ≤ n && n ≤ 0x1F8FF) ||
  (0x1F900 ≤ n && n ≤ 0x1F9FF) || (0x1FA00 ≤ n && n ≤ 0x1FA6F) ||
  (0x1FA70 ≤ n && n ≤ 0x1FAFF) || (0x2600 ≤ n && n ≤ 0x26FF) ||
  (0x2700 ≤ n && n ≤ 0x27BF) || (0x1F1E6 ≤ n && n ≤ 0x1F1FF)

/-- The combining diacritical marks removed by `preprocess_text`
(text.rs line 96). -/
def isDiacritic (c : Char) : Bool :=
  let n := c.toNat
  (0x0302 ≤ n && n ≤ 0x0308) || n == 0x030A || n == 0x030B || n == 0x030C ||
  (0x0327 ≤ n && n ≤ 0x032F)

/-- Leftmost, non-overlapping replacement of the literal pattern `p` by `r`,
the shared semantics of Rust `str::replace` and of `Regex::replace_all` on a
literal pattern.  Structural recursion on a fuel that starts at the string
length; every step consumes at least one character, so the fuel never runs
out on the initial call (all patterns used below are non-empty). -/
def replaceAllF (p r : List Char) : ℕ → List Char → List Char
  | 0, s => s
  | _ + 1, [] => []
  | fuel + 1, c :: rest =>
    if p ≠ [] ∧ p.isPrefixOf (c :: rest) then
      r ++ replaceAllF p r fuel ((c :: rest).drop p.length)
    else
      c :: replaceAllF p r fuel rest

def replaceAll (p r s : List Char) : List Char := replaceAllF p r s.length s

/-- Whether `p` occurs as a contiguous substring of `s`
(Rust `str::contains` on a literal pattern). -/
def containsSub (p : List Char) : List Char → Bool
  | [] => p.isPrefixOf []
  | c :: rest => p.isPrefixOf (c :: rest) || containsSub p rest

/-- One Rust `while text.contains(p) { text = text.replace(p, r) }` loop
(text.rs lines 147-155).  Each iteration with an occurrence of the
two-character pattern shortens the text, so `s.length` rounds of fuel reach
the same fixed point the Rust loop terminates at. -/
def collapsePairsF (p r : List Char) : ℕ → List Char → List Char
  | 0, s => s
  | fuel + 1, s => if containsSub p s then collapsePairsF p r fuel (replaceAll p r s) else s

def collapsePairs (p r s : List Char) : List Char := collapsePairsF p r s.length s

/-- `Regex::replace_all(r"\s+", " ")`: every maximal run of whitespace
becomes a single ASCII space. -/
def collapseWs : List Char → List Char
  | [] => []
  | [c] => if isWs c then [' '] else [c]
  | c :: d :: rest =>
    if isWs c then
      if isWs d then collapseWs (d :: rest) else ' ' :: collapseWs (d :: rest)
    else c :: collapseWs (d :: rest)

/-- Rust `str::trim`: strip Unicode whitespace from both ends. -/
def trimChars (s : List Char) : List Char :=
  ((s.dropWhile isWs).reverse.dropWhile isWs).reverse

/-- The ordered literal replacements of text.rs lines 70-89. -/
def replacementPairs : List (List Char × List Char) :=
  [('–', "-"), ('‑', "-"), ('—', "-"), ('¯', " "), ('_', " "),
   ('“', String.mk [quoteC]), ('”', String.mk [quoteC]),
   ('‘', String.mk [apoC]), ('’', String.mk [apoC]), ('´', String.mk [apoC]),
   (btC, String.mk [apoC]),
   ('[', " "), (']', " "), ('|', " "), ('/', " "), ('#', " "),
   ('→', " "), ('←', " ")].map (fun pr => ([pr.1], pr.2.data))

/-- The decorative symbols removed at text.rs line 100 (`str::replace`
by the empty string). -/
def specialSymbolPats : List (List Char) := [['♥'], ['☆'], ['♡'], ['©'], [bslashC]]

/-- The known-expression replacements of text.rs lines 106-110. -/
def exprPairs : List (List Char × List Char) :=
  [("@".data, " at ".data),
   ("e.g.,".data, "for example, ".data),
   ("i.e.,".data, "that is, ".data)]

/-- The seven space-before-punctuation repairs of text.rs lines 117-144,
in source order. -/
def spacingPairs : List (List Char × List Char) :=
  [(" ,".data, ",".data), (" .".data, ".".data), (" !".data, "!".data),
   (" ?".data, "?".data), (" ;".data, ";".data), (" :".data, ":".data),
   ([' ', apoC], [apoC])]

/-- The terminal punctuation / quote / closing-bracket class of the final
regex of `preprocess_text` (text.rs line 167). -/
def punctSet : List Char :=
  ['.', '!', '?', ';', ':', ',', apoC, quoteC, '“', '”', '‘', '’',
   ')', ']', '\x7d', '…', '。', '」', '』', '】', '〉', '》', '›', '»']

/-- Append a period when non-empty text does not already end in the
terminal class (text.rs lines 165-172). -/
def ensureTerminal (s : List Char) : List Char :=
  match s.getLast? with
  | none => s
  | some c => if punctSet.contains c then s else s ++ ['.']

/-- NFKD normalization, performed in the source by the external
`unicode_normalization` crate (text.rs line 63).  The crate is outside this
repository; it is modelled at its interface as the identity map, which is
exact on NFKD-normalized text — in particular on the ASCII and Latin-1
inputs every concrete evaluation below uses. -/
def nfkd (s : List Char) : List Char := s

def applyPairs (pairs : List (List Char × List Char)) (s : List Char) : List Char :=
  pairs.foldl (fun t pr => replaceAll pr.1 pr.2 t) s

/-- `preprocess_text` of text.rs lines 62-175, stage by stage in source
order. -/
def preprocessList (s : List Char) : List Char :=
  let s := nfkd s
  let s := s.filter (fun c => !isEmoji c)
  let s := applyPairs replacementPairs s
  let s := s.filter (fun c => !isDiacritic c)
  let s := specialSymbolPats.foldl (fun t p => replaceAll p [] t) s
  let s := applyPairs exprPairs s
  let s := applyPairs spacingPairs s
  let s := collapsePairs [quoteC, quoteC] [quoteC] s
  let s := collapsePairs [apoC, apoC] [apoC] s
  let s := collapsePairs [btC, btC] [btC] s
  let s := collapseWs s
  let s := trimChars s
  ensureTerminal s

def preprocess_text (s : String) : String := String.mk (preprocessList s.data)

-- ============================================================================
-- Text chunking (text.rs lines 203-377)
-- ============================================================================

/-- UTF-8 encoded size of one scalar value; `&str::len` in Rust counts
bytes, so every length comparison below uses `byteLen`. -/
def csize (c : Char) : ℕ :=
  if c.toNat < 0x80 then 1
  else if c.toNat < 0x800 then 2
  else if c.toNat < 0x10000 then 3
  else 4

def byteLen (s : List Char) : ℕ := (s.map csize).sum

def MAX_CHUNK_LENGTH : ℕ := 300

def abbreviations : List (List Char) :=
  ["Dr.", "Mr.", "Mrs.", "Ms.", "Prof.", "Sr.", "Jr.", "St.", "Ave.", "Rd.",
   "Blvd.", "Dept.", "Inc.", "Ltd.", "Co.", "Corp.", "etc.", "vs.", "i.e.",
   "e.g.", "Ph.D."].map String.data

/-- `combined.ends_with(abbrev)` for any known abbreviation
(text.rs lines 352-358). -/
def isAbbrevEnd (combined : List Char) : Bool :=
  abbreviations.any (fun a => a.isSuffixOf combined)

/-- The scan behind `split_sentences` (text.rs lines 332-377): walk the
text, and at each match of `([.!?])\s+` (the punctuation followed by a
maximal whitespace run) either flush the accumulated sentence — boundary
included, exactly `text[last_end..m.end()]` — or, when the text before the
boundary plus the punctuation ends in an abbreviation, keep accumulating.
Fuel-based structural recursion: every step consumes at least one character,
so `s.length` fuel suffices. -/
def sentAuxF : ℕ → List Char → List Char → List (List Char)
  | 0, acc, s => if acc ++ s = [] then [] else [acc ++ s]
  | _ + 1, acc, [] => if acc = [] then [] else [acc]
  | fuel + 1, acc, c :: rest =>
    if (c == '.' || c == '!' || c == '?') &&
        (match rest with | [] => false | d :: _ => isWs d) then
      let wsRun := rest.takeWhile isWs
      let after := rest.dropWhile isWs
      if isAbbrevEnd (trimChars acc ++ [c]) then
        sentAuxF fuel (acc ++ c :: wsRun) after
      else
        (acc ++ c :: wsRun) :: sentAuxF fuel [] after
    else
      sentAuxF fuel (acc ++ [c]) rest

def split_sentences (s : List Char) : List (List Char) :=
  let r := sentAuxF s.length [] s
  if r = [] then [s] else r

/-- Rust `str::split(',')`: every comma separates, empty pieces kept. -/
def splitOnComma : List Char → List (List Char)
  | [] => [[]]
  | c :: rest =>
    if c = ',' then [] :: splitOnComma rest
    else
      match splitOnComma rest with
      | [] => [[c]]
      | h :: t => (c :: h) :: t

def splitWsAux : List Char → List (List Char)
  | [] => [[]]
  | c :: rest =>
    if isWs c then [] :: splitWsAux rest
    else
      match splitWsAux rest with
      | [] => [[c]]
      | h :: t => (c :: h) :: t

/-- Rust `str::split_whitespace`: split on whitespace, empties dropped. -/
def split_whitespace (s : List Char) : List (List Char) :=
  (splitWsAux s).filter (fun w => w ≠ [])

/-- State of the accumulate-and-flush loops of `chunk_text`: the emitted
chunks, the running buffer, and the tracked length variable (the source
tracks it separately from the buffer; the model does the same). -/
structure ChunkState where
  chunks : List (List Char)
  current : List Char
  cur_len : ℕ
deriving DecidableEq, Repr

/-- Word loop of text.rs lines 265-287: flush when adding the word (plus
one separator byte) would exceed `max_len`, then append with a single
space. -/
def wordStep (max_len : ℕ) (st : ChunkState) (word : List Char) : ChunkState :=
  let word_len := byteLen word
  let st :=
    if st.cur_len + word_len + 1 > max_len ∧ st.current ≠ [] then
      { chunks := st.chunks ++ [trimChars st.current], current := [], cur_len := 0 }
    else st
  if st.current ≠ [] then
    { st with current := st.current ++ ' ' :: word, cur_len := st.cur_len + 1 + word_len }
  else
    { st with current := st.current ++ word, cur_len := st.cur_len + word_len }

def processWords (max_len : ℕ) (chunks : List (List Char)) (part : List Char) :
    List (List Char) :=
  let words := split_whitespace part
  let st := words.foldl (wordStep max_len) ⟨chunks, [], 0⟩
  if st.current ≠ [] then st.chunks ++ [trimChars st.current] else st.chunks

/-- Comma-part loop of text.rs lines 256-302: parts short enough are
greedily joined with `", "` (two bytes, while the flush test budgets one);
an over-long part falls through to the word splitter, without flushing the
running buffer first. -/
def partStep (max_len : ℕ) (st : ChunkState) (part0 : List Char) : ChunkState :=
  let part := trimChars part0
  if part = [] then st
  else
    let part_len := byteLen part
    if part_len > max_len then
      { st with chunks := processWords max_len st.chunks part }
    else
      let st :=
        if st.cur_len + part_len + 1 > max_len ∧ st.current ≠ [] then
          { chunks := st.chunks ++ [trimChars st.current], current := [], cur_len := 0 }
        else st
      if st.current ≠ [] then
        { st with current := st.current ++ ',' :: ' ' :: part, cur_len := st.cur_len + 2 + part_len }
      else
        { st with current := st.current ++ part, cur_len := st.cur_len + part_len }

/-- Sentence loop of text.rs lines 239-318. -/
def sentenceStep (max_len : ℕ) (st : ChunkState) (sentence0 : List Char) : ChunkState :=
  let sentence := trimChars sentence0
  if sentence = [] then st
  else
    let sentence_len := byteLen sentence
    if sentence_len > max_len then
      let st :=
        if st.current ≠ [] then
          { chunks := st.chunks ++ [trimChars st.current], current := [], cur_len := 0 }
        else st
      (splitOnComma sentence).foldl (partStep max_len) st
    else
      let st :=
        if st.cur_len + sentence_len + 1 > max_len ∧ st.current ≠ [] then
          { chunks := st.chunks ++ [trimChars st.current], current := [], cur_len := 0 }
        else st
      if st.current ≠ [] then
        { st with current := st.current ++ ' ' :: sentence, cur_len := st.cur_len + 1 + sentence_len }
      else
        { st with current := st.current ++ sentence, cur_len := st.cur_len + sentence_len }

/-- Per-paragraph body of `chunk_text` (text.rs lines 223-323). -/
def processPara (max_len : ℕ) (chunks : List (List Char)) (para0 : List Char) :
    List (List Char) :=
  let para := trimChars para0
  if para = [] then chunks
  else if byteLen para ≤ max_len then chunks ++ [para]
  else
    let st := (split_sentences para).foldl (sentenceStep max_len) ⟨chunks, [], 0⟩
    if st.current ≠ [] then st.chunks ++ [trimChars st.current] else st.chunks

/-- Length of the paragraph-break match `\n\s*\n` starting at the head of
`s`, if there is one: a leading newline, then up to the last newline of the
maximal whitespace run (the greedy `\s*` backtracks to the final `\n`). -/
def paraBreakLen (s : List Char) : Option ℕ :=
  match s with
  | [] => none
  | c :: _ =>
    if c = nlC then
      let run := s.takeWhile isWs
      let lastIdx := run.length - 1 - (run.reverse.takeWhile (fun d => d ≠ nlC)).length
      if 1 ≤ lastIdx then some (lastIdx + 1) else none
    else none

/-- `Regex::split` on `\n\s*\n`: cut at each successive leftmost match.
Fuel-based: every step consumes at least one character. -/
def splitParasF : ℕ → List Char → List Char → List (List Char)
  | 0, acc, s => [acc ++ s]
  | _ + 1, acc, [] => [acc]
  | fuel + 1, acc, c :: rest =>
    match paraBreakLen (c :: rest) with
    | some k => acc :: splitParasF fuel [] ((c :: rest).drop k)
    | none => splitParasF fuel (acc ++ [c]) rest

def splitParas (s : List Char) : List (List Char) := splitParasF s.length [] s

/-- `chunk_text` of text.rs lines 210-330. -/
def chunk_text (text : String) (maxLen : Option ℕ) : List String :=
  let max_len := maxLen.getD MAX_CHUNK_LENGTH
  let t := trimChars text.data
  if t = [] then [""]
  else
    let chunks := (splitParas t).foldl (processPara max_len) []
    if chunks = [] then [""] else chunks.map String.mk

-- ============================================================================
-- Rank-3 tensors, masks, tokenizer (ndarray Array3<f32>, text.rs lines 34-197)
-- ============================================================================

/-- Rust `as usize` applied to a non-NaN `f32`: truncate toward zero and
saturate below at 0 (`Int.toNat` of the floor is exactly that for the
rational values arising here). -/
def f32ToUsize (q : ℚ) : ℕ := (Int.floor q).toNat

/-- Rust `as usize` applied to an `i32`: sign-extend, then reinterpret
modulo `2^64`. -/
def i32ToUsize (n : ℤ) : ℕ := (n % 2 ^ 64).toNat

/-- The `(x + chunk - 1) / chunk` ceiling division used by
`sample_noisy_latent`. -/
def ceilDivNat (a b : ℕ) : ℕ := (a + b - 1) / b

/-- A rank-3 `f32` tensor, row-major, as `ndarray::Array3` stores it. -/
structure Array3 where
  d1 : ℕ
  d2 : ℕ
  d3 : ℕ
  data : List ℚ
deriving DecidableEq, Repr

/-- Build a tensor from an element function; the row-major comprehension is
the nested `for b / for d / for t` fill loop of the source. -/
def Array3.ofFn (d1 d2 d3 : ℕ) (f : ℕ → ℕ → ℕ → ℚ) : Array3 :=
  ⟨d1, d2, d3,
   (List.range (d1 * d2 * d3)).map
     (fun n => f (n / (d2 * d3)) (n / d3 % d2) (n % d3))⟩

/-- `a[[i, j, k]]` (reads out of range give 0; the source never reads out
of range). -/
def Array3.get (a : Array3) (i j k : ℕ) : ℚ :=
  a.data.getD ((i * a.d2 + j) * a.d3 + k) 0

/-- `length_to_mask` of text.rs lines 181-192: a `(bsz, 1, max_len)` tensor
of zeros, with ones written at `[i, 0, j]` for `j < len.min(max_len)`. -/
def length_to_mask (lengths : List ℕ) (maxLen : Option ℕ) : Array3 :=
  let bsz := lengths.length
  let max_len := maxLen.getD (lengths.foldr max 0)
  Array3.ofFn bsz 1 max_len
    (fun i _ j => if j < min (lengths.getD i 0) max_len then 1 else 0)

/-- `get_text_mask` of text.rs lines 194-197. -/
def get_text_mask (text_ids_lengths : List ℕ) : Array3 :=
  length_to_mask text_ids_lengths (some (text_ids_lengths.foldr max 0))

/-- `text_to_unicode_values` of text.rs lines 177-179. -/
def text_to_unicode_values (s : List Char) : List ℕ := s.map Char.toNat

structure UnicodeProcessor where
  indexer : List ℤ

/-- `UnicodeProcessor::call` of text.rs lines 34-59: normalize every chunk,
build one id row per chunk — a zero row of the batch-maximal length, its
first `len` positions overwritten through the indexer table (`-1` when the
code point is at or beyond the table length) — plus the text mask. -/
def UnicodeProcessor.call (up : UnicodeProcessor) (text_list : List String) :
    List (List ℤ) × Array3 :=
  let processed_texts := text_list.map (fun t => preprocessList t.data)
  let text_ids_lengths := processed_texts.map List.length
  let max_len := text_ids_lengths.foldr max 0
  let text_ids := processed_texts.map (fun t =>
    let unicode_vals := text_to_unicode_values t
    (List.range max_len).map (fun j =>
      match unicode_vals.get? j with
      | some v => if v < up.indexer.length then up.indexer.getD v 0 else -1
      | none => 0))
  (text_ids, get_text_mask text_ids_lengths)

-- ============================================================================
-- Latent sampler (model.rs lines 330-380)
-- ============================================================================

/-- `sample_noisy_latent` of model.rs lines 330-380.  The i.i.d. standard
normal draws of the source are an external random source, modelled as the
parameter `noise`; the returned latent multiplies each draw by the mask
value of its time step, exactly as the in-place `*=` loop does. -/
def sample_noisy_latent (duration : List ℚ) (sample_rate base_chunk_size chunk_compress latent_dim : ℤ)
    (noise : ℕ → ℕ → ℕ → ℚ) : Array3 × Array3 :=
  let bsz := duration.length
  let max_dur := duration.foldl (fun a b => max a b) 0
  let wav_len_max := f32ToUsize (max_dur * (sample_rate : ℚ))
  let wav_lengths := duration.map (fun d => f32ToUsize (d * (sample_rate : ℚ)))
  let chunk_size := i32ToUsize (base_chunk_size * chunk_compress)
  let latent_len := (wav_len_max + chunk_size - 1) / chunk_size
  let latent_dim_val := i32ToUsize (latent_dim * chunk_compress)
  let latent_lengths := wav_lengths.map (fun len => (len + chunk_size - 1) / chunk_size)
  let latent_mask := length_to_mask latent_lengths (some latent_len)
  let noisy_latent := Array3.ofFn bsz latent_dim_val latent_len
    (fun b d t => noise b d t * latent_mask.get b 0 t)
  (noisy_latent, latent_mask)

-- ============================================================================
-- Inference pipeline tail and synthesis façade (model.rs lines 155-327)
-- ============================================================================

/-- The speed adjustment of `_infer` (model.rs lines 195-197): every raw
predicted duration is divided by the speed factor. -/
def apply_speed (duration : List ℚ) (speed : ℚ) : List ℚ :=
  duration.map (fun d => d / speed)

/-- The waveform slicing of `_infer` (model.rs lines 268-277): the flat
vocoder output is cut into `bsz` equal stripes, and item `i` keeps the
first `min((sample_rate as f32 * duration[i]) as usize, stripe)` samples of
its stripe. -/
def slice_wav_outputs (sample_rate : ℤ) (duration : List ℚ) (wav_flat : List ℚ) :
    List (List ℚ) :=
  let bsz := duration.length
  let wav_len_per_sample := wav_flat.length / bsz
  (List.range bsz).map (fun i =>
    let actual_len := f32ToUsize ((sample_rate : ℚ) * duration.getD i 0)
    let wav_start := i * wav_len_per_sample
    (wav_flat.drop wav_start).take (min actual_len wav_len_per_sample))

/-- `_infer` with the four engine invocations abstracted: given the raw
durations the duration predictor returned and the flat waveform the vocoder
returned, `_infer` yields the sliced waveforms and the speed-adjusted
durations (model.rs lines 155-280). -/
def infer_outputs (sample_rate : ℤ) (raw_duration : List ℚ) (speed : ℚ)
    (wav_flat : List ℚ) : List (List ℚ) × List ℚ :=
  let duration := apply_speed raw_duration speed
  (slice_wav_outputs sample_rate duration wav_flat, duration)

/-- The chunk loop of `TextToSpeech::call` (model.rs lines 295-313).
`inferOne` abstracts `_infer` on a singleton batch: it returns the single
waveform and duration, or the engine error that aborts the call. -/
def tts_call_go {ε : Type} (inferOne : String → Except ε (List ℚ × ℚ)) (sample_rate : ℤ)
    (silence_duration : ℚ) :
    List String → ℕ → List ℚ → ℚ → Except ε (List ℚ × ℚ)
  | [], _, wav_cat, dur_cat => .ok (wav_cat, dur_cat)
  | chunk :: rest, i, wav_cat, dur_cat =>
    match inferOne chunk with
    | .error e => .error e
    | .ok (wav_chunk, dur) =>
      if i = 0 then
        tts_call_go inferOne sample_rate silence_duration rest (i + 1)
          (wav_cat ++ wav_chunk) dur
      else
        let silence_len := f32ToUsize (silence_duration * (sample_rate : ℚ))
        tts_call_go inferOne sample_rate silence_duration rest (i + 1)
          (wav_cat ++ List.replicate silence_len 0 ++ wav_chunk)
          (dur_cat + silence_duration + dur)

/-- `TextToSpeech::call` (model.rs lines 282-316): chunk the text, run the
pipeline chunk by chunk, concatenate with inserted silence. -/
def tts_call {ε : Type} (inferOne : String → Except ε (List ℚ × ℚ)) (sample_rate : ℤ)
    (silence_duration : ℚ) (text : String) : Except ε (List ℚ × ℚ) :=
  tts_call_go inferOne sample_rate silence_duration (chunk_text text none) 0 [] 0

-- ============================================================================
-- Voice style loader (model.rs lines 382-490)
-- ============================================================================

structure StyleComponent where
  data : List (List (List ℚ))
  dims : List ℕ
  dtype : String
deriving DecidableEq, Repr

structure VoiceStyleData where
  style_ttl : StyleComponent
  style_dp : StyleComponent
deriving DecidableEq, Repr

structure Style where
  ttl : Array3
  dp : Array3
deriving DecidableEq, Repr

inductive SupertonicError where
  | io : SupertonicError
  | serialization : SupertonicError
  | validation : String → SupertonicError
  | shapeMismatch : (expected : List ℕ) → (got : List ℕ) → SupertonicError
deriving DecidableEq, Repr

/-- Outcome of a loader call: a value, a returned error, or a Rust panic
(an out-of-bounds index). -/
inductive LoadResult where
  | ok : Style → LoadResult
  | err : SupertonicError → LoadResult
  | panic : LoadResult
deriving DecidableEq, Repr

def LoadResult.isOk : LoadResult → Bool
  | .ok _ => true
  | _ => false

def LoadResult.isShapeMismatch : LoadResult → Bool
  | .err (.shapeMismatch _ _) => true
  | _ => false

/-- Row-major flattening of one style component's nested `data`, the order
of the three nested `for` loops of the source. -/
def flattenComp (c : StyleComponent) : List ℚ := (c.data.map List.flatten).flatten

/-- The indexed writes `flat[offset + idx] = val; idx += 1` of the fill
loop; an out-of-range index is a Rust panic, surfaced as `none`. -/
def fillFrom : List ℚ → ℕ → List ℚ → Option (List ℚ)
  | buf, _, [] => some buf
  | buf, i, v :: vs => if i < buf.length then fillFrom (buf.set i v) (i + 1) vs else none

inductive FillOut where
  | ok : List ℚ → List ℚ → FillOut
  | err : SupertonicError → FillOut
  | panic : FillOut
deriving DecidableEq, Repr

/-- The per-source loop of `load_voice_style_from_bytes` (model.rs lines
427-453): parse source `i`, then flatten both components into their batch
slots at offsets `i × dim1 × dim2`. -/
def fillSources (parse : List ℕ → Except Unit VoiceStyleData) (ttl_span dp_span : ℕ) :
    ℕ → List (List ℕ) → List ℚ → List ℚ → FillOut
  | _, [], ttl_flat, dp_flat => .ok ttl_flat dp_flat
  | i, bytes :: restBytes, ttl_flat, dp_flat =>
    match parse bytes with
    | .error _ => .err .serialization
    | .ok d =>
      match fillFrom ttl_flat (i * ttl_span) (flattenComp d.style_ttl) with
      | none => .panic
      | some ttl_flat' =>
        match fillFrom dp_flat (i * dp_span) (flattenComp d.style_dp) with
        | none => .panic
        | some dp_flat' =>
          fillSources parse ttl_span dp_span (i + 1) restBytes ttl_flat' dp_flat'

/-- `load_voice_style_from_bytes` of model.rs lines 402-474.  `parse` is
the external `serde_json::from_slice`.  The first source fixes the expected
inner dimensions (`dims[1]`, `dims[2]`; a missing entry is an indexing
panic); the flat buffers are pre-allocated at full batch size, filled per
source, and finally checked against the declared shape exactly as
`Array3::from_shape_vec` does (length must equal the dimension product). -/
def load_voice_style_from_bytes (parse : List ℕ → Except Unit VoiceStyleData)
    (bytes_list : List (List ℕ)) : LoadResult :=
  let bsz := bytes_list.length
  if bsz = 0 then .err (.validation "No voice style bytes provided")
  else
    match bytes_list.head? with
    | none => .panic
    | some first_bytes =>
      match parse first_bytes with
      | .error _ => .err .serialization
      | .ok first_data =>
        match first_data.style_ttl.dims.get? 1, first_data.style_ttl.dims.get? 2,
              first_data.style_dp.dims.get? 1, first_data.style_dp.dims.get? 2 with
        | some ttl_dim1, some ttl_dim2, some dp_dim1, some dp_dim2 =>
          let ttl_flat := List.replicate (bsz * ttl_dim1 * ttl_dim2) (0 : ℚ)
          let dp_flat := List.replicate (bsz * dp_dim1 * dp_dim2) (0 : ℚ)
          match fillSources parse (ttl_dim1 * ttl_dim2) (dp_dim1 * dp_dim2) 0
              bytes_list ttl_flat dp_flat with
          | .panic => .panic
          | .err e => .err e
          | .ok ttl_flat' dp_flat' =>
            if ttl_flat'.length = bsz * ttl_dim1 * ttl_dim2 then
              if dp_flat'.length = bsz * dp_dim1 * dp_dim2 then
                .ok ⟨⟨bsz, ttl_dim1, ttl_dim2, ttl_flat'⟩, ⟨bsz, dp_dim1, dp_dim2, dp_flat'⟩⟩
              else .err (.shapeMismatch [bsz, dp_dim1, dp_dim2] [])
            else .err (.shapeMismatch [bsz, ttl_dim1, ttl_dim2] [])
        | _, _, _, _ => .panic

/-- The read-everything-first prologue of `load_voice_style` (model.rs
lines 478-487); `fsRead` abstracts `std::fs::read`, `none` being an I/O
error. -/
def readAll (fsRead : String → Option (List ℕ)) : List String → Option (List (List ℕ))
  | [] => some []
  | p :: ps =>
    match fsRead p with
    | none => none
    | some content =>
      match readAll fsRead ps with
      | none => none
      | some rest => some (content :: rest)

/-- `load_voice_style` of model.rs lines 477-490: read every file into
memory, then delegate to `load_voice_style_from_bytes`. -/
def load_voice_style (fsRead : String → Option (List ℕ))
    (parse : List ℕ → Except Unit VoiceStyleData) (voice_style_paths : List String) :
    LoadResult :=
  match readAll fsRead voice_style_paths with
  | none => .err .io
  | some contents => load_voice_style_from_bytes parse contents

-- ============================================================================
-- Predicates used by the theorems
-- ============================================================================

/-- No two adjacent characters are both whitespace. -/
def noTwoAdjWs : List Char → Bool
  | [] => true
  | [_] => true
  | c :: d :: rest => !(isWs c && isWs d) && noTwoAdjWs (d :: rest)

/-- The text is empty or ends in the terminal punctuation class. -/
def endsOk (s : List Char) : Bool :=
  match s.getLast? with
  | none => true
  | some c => punctSet.contains c

/-- Text on which every stage of `preprocess_text` is the identity: nothing
to delete or replace, whitespace already collapsed to single ASCII spaces,
trimmed, and terminally punctuated.  `preprocess_text` maps such text to
itself. -/
def NormalizedForm (s : List Char) : Prop :=
  (∀ c ∈ s, isEmoji c = false) ∧
  (∀ pr ∈ replacementPairs, containsSub pr.1 s = false) ∧
  (∀ c ∈ s, isDiacritic c = false) ∧
  (∀ p ∈ specialSymbolPats, containsSub p s = false) ∧
  (∀ pr ∈ exprPairs, containsSub pr.1 s = false) ∧
  (∀ pr ∈ spacingPairs, containsSub pr.1 s = false) ∧
  containsSub [quoteC, quoteC] s = false ∧
  containsSub [apoC, apoC] s = false ∧
  containsSub [btC, btC] s = false ∧
  (∀ c ∈ s, isWs c = true → c = ' ') ∧
  noTwoAdjWs s = true ∧
  trimChars s = s ∧
  endsOk s = true

instance (s : List Char) : Decidable (NormalizedForm s) := by
  unfold NormalizedForm; infer_instance

/-- ASCII alphanumeric characters; they are untouched by every removal
stage of the normalizer, so their presence forces a non-empty result. -/
def isAlnum (c : Char) : Bool :=
  let n := c.toNat
  (97 ≤ n && n ≤ 122) || (65 ≤ n && n ≤ 90) || (48 ≤ n && n ≤ 57)

def hasAlnum (s : List Char) : Bool := s.any isAlnum

/-- All characters are whitespace (the condition of claim C7). -/
def allWs (s : List Char) : Bool := s.all isWs

/-- The per-item sample counts of `sample_noisy_latent`, written with the
code's truncating cast. -/
def sampleCounts (duration : List ℚ) (sample_rate : ℤ) : List ℕ :=
  duration.map (fun d => f32ToUsize (d * (sample_rate : ℚ)))

/-- `chunk_size = base_chunk_size × chunk_compress_factor`. -/
def chunkSize (base_chunk_size chunk_compress : ℤ) : ℕ :=
  (base_chunk_size * chunk_compress).toNat

/-- The latent time extent `T = ceil(max(sample_counts) / chunk_size)`. -/
def latentT (duration : List ℚ) (sample_rate base_chunk_size chunk_compress : ℤ) : ℕ :=
  ceilDivNat ((sampleCounts duration sample_rate).foldr max 0)
    (chunkSize base_chunk_size chunk_compress)

/-- A stub `serde_json::from_slice` whose single parsed record underfills
its declared `dims[1] × dims[2] = 2` volume for `style_ttl` (one value
instead of two) while `style_dp` fills exactly. -/
def c4ParseStub : List ℕ → Except Unit VoiceStyleData := fun _ =>
  .ok ⟨⟨[[[5]]], [1, 1, 2], "float32"⟩, ⟨[[[7, 8]]], [1, 1, 2], "float32"⟩⟩

-- ============================================================================
-- Lemmas: fixed points of the normalizer stages
-- ============================================================================

theorem replaceAllF_of_not_contains (p r : List Char) :
    ∀ (fuel : ℕ) (s : List Char), containsSub p s = false → replaceAllF p r fuel s = s := by
  intro fuel
  induction fuel with
  | zero => intro s _; rfl
  | succ fuel ih =>
    intro s h
    cases s with
    | nil => rfl
    | cons c rest =>
      rw [containsSub, Bool.or_eq_false_iff] at h
      rw [replaceAllF, if_neg (by simp [h.1]), ih rest h.2]

theorem replaceAll_of_not_contains (p r s : List Char) (h : containsSub p s = false) :
    replaceAll p r s = s :=
  replaceAllF_of_not_contains p r s.length s h

theorem collapsePairsF_of_not_contains (p r : List Char) (fuel : ℕ) (s : List Char)
    (h : containsSub p s = false) : collapsePairsF p r fuel s = s := by
  cases fuel with
  | zero => rfl
  | succ fuel => rw [collapsePairsF, if_neg (by simp [h])]

theorem collapsePairs_of_not_contains (p r s : List Char) (h : containsSub p s = false) :
    collapsePairs p r s = s :=
  collapsePairsF_of_not_contains p r s.length s h

theorem applyPairs_of_not_contains :
    ∀ (pairs : List (List Char × List Char)) (s : List Char),
      (∀ pr ∈ pairs, containsSub pr.1 s = false) → applyPairs pairs s = s := by
  intro pairs
  induction pairs with
  | nil => intro s _; rfl
  | cons pr prs ih =>
    intro s h
    have h1 : containsSub pr.1 s = false := h pr (by simp)
    show applyPairs (pr :: prs) s = s
    rw [applyPairs, List.foldl_cons, replaceAll_of_not_contains _ _ _ h1]
    exact ih s (fun q hq => h q (by simp [hq]))

theorem foldl_remove_of_not_contains :
    ∀ (pats : List (List Char)) (s : List Char),
      (∀ p ∈ pats, containsSub p s = false) →
      pats.foldl (fun t p => replaceAll p [] t) s = s := by
  intro pats
  induction pats with
  | nil => intro s _; rfl
  | cons p ps ih =>
    intro s h
    rw [List.foldl_cons, replaceAll_of_not_contains _ _ _ (h p (by simp))]
    exact ih s (fun q hq => h q (by simp [hq]))

theorem collapseWs_of_normal :
    ∀ (s : List Char), (∀ c ∈ s, isWs c = true → c = ' ') → noTwoAdjWs s = true →
      collapseWs s = s := by
  intro s
  induction s with
  | nil => intro _ _; rfl
  | cons c rest ih =>
    intro hws hadj
    have hrest : collapseWs rest = rest := by
      refine ih (fun x hx => hws x (by simp [hx])) ?_
      cases rest with
      | nil => rfl
      | cons d rest2 =>
        rw [noTwoAdjWs, Bool.and_eq_true] at hadj
        exact hadj.2
    by_cases hc : isWs c = true
    · have hcsp : c = ' ' := hws c (by simp) hc
      cases rest with
      | nil => simp [collapseWs, hc, hcsp]
      | cons d rest2 =>
        have hd : isWs d = false := by
          rw [noTwoAdjWs, Bool.and_eq_true, Bool.not_eq_true'] at hadj
          have := hadj.1
          rw [hc] at this
          simpa using this
        rw [collapseWs, if_pos hc, if_neg (by simp [hd]), hrest, hcsp]
    · cases rest with
      | nil => simp [collapseWs, hc]
      | cons d rest2 => rw [collapseWs, if_neg hc, hrest]

theorem ensureTerminal_of_endsOk (s : List Char) (h : endsOk s = true) :
    ensureTerminal s = s := by
  unfold endsOk at h
  unfold ensureTerminal
  split
  · rfl
  · rename_i c heq
    rw [heq] at h
    simp only at h
    simp only [h, if_true]

/-- Text in `NormalizedForm` is a fixed point of the whole normalizer. -/
theorem preprocessList_fixed (s : List Char) (h : NormalizedForm s) :
    preprocessList s = s := by
  obtain ⟨h1, h2, h3, h4, h5, h6, h7, h8, h9, h10, h11, h12, h13⟩ := h
  simp only [preprocessList, nfkd]
  rw [show List.filter (fun c => !isEmoji c) s = s from
    List.filter_eq_self.mpr (by intro c hc; simpa using h1 c hc)]
  rw [applyPairs_of_not_contains replacementPairs s h2]
  rw [show List.filter (fun c => !isDiacritic c) s = s from
    List.filter_eq_self.mpr (by intro c hc; simpa using h3 c hc)]
  rw [foldl_remove_of_not_contains specialSymbolPats s h4]
  rw [applyPairs_of_not_contains exprPairs s h5]
  rw [applyPairs_of_not_contains spacingPairs s h6]
  rw [collapsePairs_of_not_contains _ _ _ h7]
  rw [collapsePairs_of_not_contains _ _ _ h8]
  rw [collapsePairs_of_not_contains _ _ _ h9]
  rw [collapseWs_of_normal _ h10 h11]
  rw [h12]
  exact ensureTerminal_of_endsOk _ h13

-- ============================================================================
-- Lemmas: alphanumeric characters survive the normalizer
-- ============================================================================

theorem ws_not_alnum (c : Char) (h : isWs c = true) : isAlnum c = false := by
  rw [isWs] at h
  rw [isAlnum]
  simp only [Bool.or_eq_true, Bool.and_eq_true, decide_eq_true_eq, beq_iff_eq] at h
  simp only [Bool.or_eq_false_iff, Bool.and_eq_false_iff, decide_eq_false_iff_not, not_le]
  omega

theorem hasAlnum_append (a b : List Char) :
    hasAlnum (a ++ b) = (hasAlnum a || hasAlnum b) := by
  simp [hasAlnum, List.any_append]

theorem hasAlnum_cons (c : Char) (s : List Char) :
    hasAlnum (c :: s) = (isAlnum c || hasAlnum s) := by
  simp [hasAlnum]

theorem isPrefixOf_append_drop :
    ∀ (p s : List Char), p.isPrefixOf s = true → s = p ++ s.drop p.length := by
  intro p
  induction p with
  | nil => intro s _; simp
  | cons a as ih =>
    intro s h
    cases s with
    | nil => simp [List.isPrefixOf] at h
    | cons b bs =>
      rw [List.isPrefixOf, Bool.and_eq_true, beq_iff_eq] at h
      obtain ⟨hab, htail⟩ := h
      have := ih bs htail
      simp only [List.length_cons, List.drop_succ_cons]
      rw [hab]
      exact congrArg (b :: ·) this

theorem replaceAllF_hasAlnum (p r : List Char)
    (hpr : (∀ c ∈ p, isAlnum c = false) ∨ hasAlnum r = true) :
    ∀ (fuel : ℕ) (s : List Char), hasAlnum s = true →
      hasAlnum (replaceAllF p r fuel s) = true := by
  intro fuel
  induction fuel with
  | zero => intro s h; exact h
  | succ fuel ih =>
    intro s h
    cases s with
    | nil => simpa [hasAlnum] using h
    | cons c rest =>
      rw [replaceAllF]
      by_cases hp : p ≠ [] ∧ p.isPrefixOf (c :: rest) = true
      · rw [if_pos hp]
        rw [hasAlnum_append]
        rcases hpr with hfree | hr
        · have hdecomp := isPrefixOf_append_drop p (c :: rest) hp.2
          have hdrop : hasAlnum ((c :: rest).drop p.length) = true := by
            rw [hasAlnum, List.any_eq_true] at h
            obtain ⟨x, hx, hax⟩ := h
            rw [hdecomp, List.mem_append] at hx
            rcases hx with hx | hx
            · exact absurd hax (by simp [hfree x hx])
            · rw [hasAlnum, List.any_eq_true]; exact ⟨x, hx, hax⟩
          rw [ih _ hdrop]
          simp
        · rw [hr]
          simp
      · rw [if_neg hp]
        rw [hasAlnum_cons] at h ⊢
        rcases Bool.or_eq_true_iff.mp h with hc | hrest
        · rw [hc]; simp
        · rw [ih _ hrest]; simp

theorem replaceAll_hasAlnum (p r s : List Char)
    (hpr : (∀ c ∈ p, isAlnum c = false) ∨ hasAlnum r = true)
    (h : hasAlnum s = true) : hasAlnum (replaceAll p r s) = true :=
  replaceAllF_hasAlnum p r hpr s.length s h

theorem applyPairs_hasAlnum :
    ∀ (pairs : List (List Char × List Char)),
      (∀ pr ∈ pairs, (∀ c ∈ pr.1, isAlnum c = false) ∨ hasAlnum pr.2 = true) →
      ∀ (s : List Char), hasAlnum s = true → hasAlnum (applyPairs pairs s) = true := by
  intro pairs
  induction pairs with
  | nil => intro _ s h; exact h
  | cons pr prs ih =>
    intro hp s h
    rw [applyPairs, List.foldl_cons]
    exact ih (fun q hq => hp q (by simp [hq])) _
      (replaceAll_hasAlnum _ _ _ (hp pr (by simp)) h)

theorem foldl_remove_hasAlnum :
    ∀ (pats : List (List Char)),
      (∀ p ∈ pats, ∀ c ∈ p, isAlnum c = false) →
      ∀ (s : List Char), hasAlnum s = true →
        hasAlnum (pats.foldl (fun t p => replaceAll p [] t) s) = true := by
  intro pats
  induction pats with
  | nil => intro _ s h; exact h
  | cons p ps ih =>
    intro hp s h
    rw [List.foldl_cons]
    exact ih (fun q hq => hp q (by simp [hq])) _
      (replaceAll_hasAlnum _ _ _ (Or.inl (hp p (by simp))) h)

theorem collapsePairsF_hasAlnum (p r : List Char) (hfree : ∀ c ∈ p, isAlnum c = false) :
    ∀ (fuel : ℕ) (s : List Char), hasAlnum s = true →
      hasAlnum (collapsePairsF p r fuel s) = true := by
  intro fuel
  induction fuel with
  | zero => intro s h; exact h
  | succ fuel ih =>
    intro s h
    rw [collapsePairsF]
    by_cases hc : containsSub p s = true
    · rw [if_pos hc]
      exact ih _ (replaceAll_hasAlnum _ _ _ (Or.inl hfree) h)
    · rw [if_neg hc]
      exact h

theorem hasAlnum_filter (q : Char → Bool) (hq : ∀ c, isAlnum c = true → q c = true) :
    ∀ (s : List Char), hasAlnum s = true → hasAlnum (s.filter q) = true := by
  intro s h
  rw [hasAlnum, List.any_eq_true] at h ⊢
  obtain ⟨x, hx, hax⟩ := h
  exact ⟨x, List.mem_filter.mpr ⟨hx, hq x hax⟩, hax⟩

theorem hasAlnum_dropWhile_isWs :
    ∀ (s : List Char), hasAlnum s = true → hasAlnum (s.dropWhile isWs) = true := by
  intro s
  induction s with
  | nil => intro h; exact h
  | cons c rest ih =>
    intro h
    rw [List.dropWhile_cons]
    by_cases hc : isWs c = true
    · rw [if_pos hc]
      rw [hasAlnum_cons, ws_not_alnum c hc, Bool.false_or] at h
      exact ih h
    · rw [if_neg hc]
      exact h

theorem hasAlnum_reverse (s : List Char) : hasAlnum s.reverse = hasAlnum s := by
  simp [hasAlnum, List.any_eq_true]

theorem hasAlnum_trimChars (s : List Char) (h : hasAlnum s = true) :
    hasAlnum (trimChars s) = true := by
  rw [trimChars, hasAlnum_reverse]
  exact hasAlnum_dropWhile_isWs _ (by rw [hasAlnum_reverse]; exact hasAlnum_dropWhile_isWs _ h)

theorem hasAlnum_collapseWs :
    ∀ (s : List Char), hasAlnum s = true → hasAlnum (collapseWs s) = true := by
  intro s
  induction s with
  | nil => intro h; exact h
  | cons c rest ih =>
    intro h
    rw [hasAlnum_cons] at h
    cases rest with
    | nil =>
      by_cases hc : isWs c = true
      · rw [Bool.or_eq_true_iff] at h
        rcases h with h | h
        · exact absurd h (by simp [ws_not_alnum c hc])
        · simpa [hasAlnum] using h
      · simpa [collapseWs, hc, hasAlnum_cons] using h
    | cons d rest2 =>
      by_cases hc : isWs c = true
      · have hrest : hasAlnum (d :: rest2) = true := by
          rcases Bool.or_eq_true_iff.mp h with h | h
          · exact absurd h (by simp [ws_not_alnum c hc])
          · exact h
        by_cases hd : isWs d = true
        · rw [collapseWs, if_pos hc, if_pos hd]
          exact ih hrest
        · rw [collapseWs, if_pos hc, if_neg hd, hasAlnum_cons, ih hrest]
          simp
      · rw [collapseWs, if_neg hc, hasAlnum_cons]
        rcases Bool.or_eq_true_iff.mp h with h | h
        · rw [h]; simp
        · rw [ih h]; simp

theorem ensureTerminal_ne_nil (s : List Char) (h : s ≠ []) : ensureTerminal s ≠ [] := by
  unfold ensureTerminal
  split
  · exact h
  · split
    · exact h
    · simp

theorem endsOk_ensureTerminal (s : List Char) : endsOk (ensureTerminal s) = true := by
  unfold ensureTerminal
  split
  · rename_i heq
    simp [endsOk, heq]
  · rename_i c heq
    by_cases hc : punctSet.contains c = true
    · rw [if_pos hc]
      simp only [endsOk, heq]
      exact hc
    · rw [if_neg hc]
      simp only [endsOk, List.getLast?_concat]
      decide

theorem hasAlnum_ne_nil (s : List Char) (h : hasAlnum s = true) : s ≠ [] := by
  intro hnil
  rw [hnil] at h
  simp [hasAlnum] at h

theorem collapsePairs_hasAlnum (p r : List Char) (hfree : ∀ c ∈ p, isAlnum c = false)
    (s : List Char) (h : hasAlnum s = true) : hasAlnum (collapsePairs p r s) = true :=
  collapsePairsF_hasAlnum p r hfree s.length s h

theorem alnum_not_emoji (c : Char) (h : isAlnum c = true) : (!isEmoji c) = true := by
  rw [isAlnum] at h
  rw [isEmoji]
  simp only [Bool.or_eq_true, Bool.and_eq_true, decide_eq_true_eq] at h
  simp only [Bool.not_eq_true', Bool.or_eq_false_iff, Bool.and_eq_false_iff,
    decide_eq_false_iff_not, not_le]
  omega

theorem alnum_not_diacritic (c : Char) (h : isAlnum c = true) : (!isDiacritic c) = true := by
  rw [isAlnum] at h
  rw [isDiacritic]
  simp only [Bool.or_eq_true, Bool.and_eq_true, decide_eq_true_eq, beq_iff_eq] at h
  simp only [Bool.not_eq_true', Bool.or_eq_false_iff, Bool.and_eq_false_iff,
    decide_eq_false_iff_not, not_le, beq_eq_false_iff_ne, ne_eq]
  omega

/-- An alphanumeric character somewhere in the input survives every stage
of the normalizer, so the output is non-empty. -/
theorem preprocessList_ne_nil_of_hasAlnum (s : List Char) (h : hasAlnum s = true) :
    preprocessList s ≠ [] := by
  simp only [preprocessList, nfkd]
  apply ensureTerminal_ne_nil
  apply hasAlnum_ne_nil
  apply hasAlnum_trimChars
  apply hasAlnum_collapseWs
  apply collapsePairs_hasAlnum _ _ (by decide)
  apply collapsePairs_hasAlnum _ _ (by decide)
  apply collapsePairs_hasAlnum _ _ (by decide)
  apply applyPairs_hasAlnum _ (by decide)
  apply applyPairs_hasAlnum _ (by decide)
  apply foldl_remove_hasAlnum _ (by decide)
  apply hasAlnum_filter _ alnum_not_diacritic
  apply applyPairs_hasAlnum _ (by decide)
  apply hasAlnum_filter _ alnum_not_emoji
  exact h

/-- The normalizer pipeline with the stage bindings unfolded (pure zeta
reduction of `preprocessList`). -/
theorem preprocessList_eq (s : List Char) :
    preprocessList s =
      ensureTerminal (trimChars (collapseWs (collapsePairs [btC, btC] [btC]
        (collapsePairs [apoC, apoC] [apoC] (collapsePairs [quoteC, quoteC] [quoteC]
          (applyPairs spacingPairs (applyPairs exprPairs
            (List.foldl (fun t p => replaceAll p [] t)
              (List.filter (fun c => !isDiacritic c)
                (applyPairs replacementPairs
                  (List.filter (fun c => !isEmoji c) (nfkd s))))
              specialSymbolPats)))))))) := rfl

theorem preprocessList_endsOk (s : List Char) : endsOk (preprocessList s) = true := by
  rw [preprocessList_eq]
  apply endsOk_ensureTerminal

theorem data_mk (l : List Char) : (String.mk l).data = l := rfl

-- ============================================================================
-- Claim C6: idempotence of preprocess_text
-- ============================================================================

set_option maxRecDepth 100000

/-- C6, counterexample.  `preprocess_text` is not idempotent: on
`"a  ,"` (two spaces before the comma) the single left-to-right pass of the
`" ,"` repair removes only one space, and the whitespace collapse keeps the
other, so one application yields `"a ,"` while a second yields `"a,"`. -/
theorem c6_idempotence_refuted :
    preprocess_text (preprocess_text "a  ,") ≠ preprocess_text "a  ," := by decide

/-- C6 (amended).  `preprocess_text` is idempotent on every input whose
processed form is in `NormalizedForm` — no removable or replaceable
material left, whitespace already single ASCII spaces, no space before
punctuation, no doubled quotes, trimmed, and terminally punctuated.  It is
not idempotent in general: a run of two or more spaces before a punctuation
mark loses only one space per application (see the counterexample). -/
theorem c6_idempotent_on_normalized_form (t : String)
    (h : NormalizedForm (preprocess_text t).data) :
    preprocess_text (preprocess_text t) = preprocess_text t := by
  have h2 : preprocessList (preprocess_text t).data = (preprocess_text t).data :=
    preprocessList_fixed _ h
  show String.mk (preprocessList (preprocess_text t).data) = preprocess_text t
  rw [h2]

set_option maxHeartbeats 1000000 in
/-- C6 witness: a concrete normalized-form input for the amended theorem. -/
theorem c6_idempotent_on_normalized_form_witness :
    NormalizedForm (preprocess_text "Hello world").data ∧
      preprocess_text (preprocess_text "Hello world") = preprocess_text "Hello world" :=
  ⟨by decide, c6_idempotent_on_normalized_form "Hello world" (by decide)⟩

-- ============================================================================
-- Claim C7: empty output and terminal punctuation
-- ============================================================================

/-- C7, counterexample.  A non-empty, non-whitespace input can still
normalize to the empty string: `"©"` is deleted whole by the decorative
symbol removal. -/
theorem c7_empty_for_nonwhitespace_refuted :
    preprocess_text "©" = "" ∧ ("©" : String) ≠ "" ∧ allWs "©".data = false := by decide

/-- C7 (amended).  The empty input normalizes to the empty output with no
period appended; `preprocess_text t` can be empty for non-whitespace `t`
(the counterexample), but only if `t` has no alphanumeric character; and a
non-empty result always ends in the fixed punctuation / quote /
closing-bracket class. -/
theorem c7_terminal_punctuation :
    preprocess_text "" = "" ∧
      ∀ t : String,
        (hasAlnum t.data = true → preprocess_text t ≠ "") ∧
        (preprocess_text t ≠ "" → endsOk (preprocess_text t).data = true) := by
  refine ⟨rfl, fun t => ⟨fun h => ?_, fun _ => ?_⟩⟩
  · intro hempty
    rw [preprocess_text] at hempty
    rw [show ("" : String) = String.mk [] from rfl] at hempty
    injection hempty with hx
    exact preprocessList_ne_nil_of_hasAlnum t.data h hx
  · rw [preprocess_text, data_mk]
    exact preprocessList_endsOk t.data

set_option maxHeartbeats 1000000 in
/-- C7 witness: discharging the hypotheses at `"a"`. -/
theorem c7_terminal_punctuation_witness :
    hasAlnum ("a" : String).data = true ∧
      preprocess_text "a" ≠ "" ∧ endsOk (preprocess_text "a").data = true := by
  refine ⟨by decide, ?_, ?_⟩
  · exact ((c7_terminal_punctuation.2 "a").1 (by decide))
  · exact ((c7_terminal_punctuation.2 "a").2 ((c7_terminal_punctuation.2 "a").1 (by decide)))

-- ============================================================================
-- Claim C3: chunk length bound of chunk_text
-- ============================================================================

/-- C3: the claim fails on the code.  With `max_len = 9` the input
`"abc, defgh"` (10 bytes, every whitespace-separated word at most 5 bytes)
is emitted as a single 10-byte chunk: the comma loop tests
`current_len + part_len + 1 > max_len` but then joins with the two-byte
`", "`, so a rejoined chunk can exceed `max_len` by one without containing
any over-long word.  This evaluates the code at the failing input. -/
theorem c3_comma_join_exceeds_max_len :
    chunk_text "abc, defgh" (some 9) = ["abc, defgh"] ∧
      byteLen ("abc, defgh" : String).data = 10 ∧
      ∀ w ∈ split_whitespace ("abc, defgh" : String).data, byteLen w ≤ 9 := by decide

-- ============================================================================
-- Claim C10: the tokenizer on the empty batch
-- ============================================================================

/-- C10: `UnicodeProcessor::call` on the empty chunk list is total — the
batch maximum is taken with `unwrap_or(0)` — and returns the empty id list
and a `(0, 1, 0)` mask. -/
theorem c10_empty_chunk_list_total (up : UnicodeProcessor) :
    up.call [] = ([], Array3.mk 0 1 0 []) := rfl

-- ============================================================================
-- List indexing helpers
-- ============================================================================

theorem getD_map_lt {α β : Type} (f : α → β) (l : List α) (i : ℕ) (h : i < l.length)
    (d : β) (d' : α) : (l.map f).getD i d = f (l.getD i d') := by
  rw [List.getD_eq_getElem?_getD, List.getD_eq_getElem?_getD, List.getElem?_map,
    List.getElem?_eq_getElem h]
  simp

theorem getD_range (n i : ℕ) (h : i < n) (d : ℕ) : (List.range n).getD i d = i := by
  rw [List.getD_eq_getElem?_getD, List.getElem?_eq_getElem (by simpa using h)]
  simp

theorem getD_le_foldr_max (l : List ℕ) (i : ℕ) : l.getD i 0 ≤ l.foldr max 0 := by
  induction l generalizing i with
  | nil => simp [List.getD]
  | cons x xs ih =>
    cases i with
    | zero => simp [List.getD]
    | succ j =>
      have := ih j
      simp only [List.getD_cons_succ, List.foldr_cons]
      omega

-- ============================================================================
-- Claim C1: waveform slicing of _infer
-- ============================================================================

/-- C1, counterexample.  The claim computes `true_len` by rounding
`sample_rate × duration`; the code truncates (`as usize`).  With
`sample_rate = 2`, one raw duration `3/4`, `speed = 1` and a 4-sample flat
buffer, the code returns 1 sample where the claimed `round`-based slice
length is `min(round(1.5), 4) = 2`. -/
theorem c1_round_slicing_refuted :
    ((infer_outputs 2 [3/4] 1 [1, 2, 3, 4]).1.getD 0 []).length ≠
      min (round ((2 : ℚ) * ((3 : ℚ)/4 / 1))).toNat ([1, 2, 3, 4].length / [(3 : ℚ)/4].length) := by
  have h1 : round ((2 : ℚ) * ((3 : ℚ)/4 / 1)) = 2 := by norm_num [round_eq]
  have h2 : (infer_outputs 2 [3/4] 1 [1, 2, 3, 4]).1.getD 0 [] = [1] := by
    simp [infer_outputs, slice_wav_outputs, apply_speed, f32ToUsize, List.range_succ]
    norm_num [Int.floor_eq_iff]
  rw [h1, h2]
  decide

/-- C1 (amended).  For a successful `_infer`, the waveform of batch item
`i` is the contiguous slice of the flat vocoder output starting at
`i × per_item_len` of length `min(true_len, per_item_len)`, where
`per_item_len` is the flat length integer-divided by the batch size and
`true_len = ⌊sample_rate × duration_i⌋` (truncation toward zero — not
rounding) of the speed-adjusted duration; samples beyond `true_len` are
never included. -/
theorem c1_slice_floor (sample_rate : ℤ) (raw_duration : List ℚ) (speed : ℚ)
    (wav_flat : List ℚ) (i : ℕ) (hi : i < raw_duration.length) :
    (infer_outputs sample_rate raw_duration speed wav_flat).1.getD i [] =
      (wav_flat.drop (i * (wav_flat.length / raw_duration.length))).take
        (min (Int.toNat ⌊(sample_rate : ℚ) * (raw_duration.getD i 0 / speed)⌋)
          (wav_flat.length / raw_duration.length)) := by
  unfold infer_outputs slice_wav_outputs apply_speed
  rw [getD_map_lt _ _ i (by simpa using (by simpa using hi : i < (raw_duration.map (fun d => d / speed)).length)) _ 0]
  rw [getD_range _ i (by simpa using hi)]
  rw [getD_map_lt _ _ i (by simpa using hi) _ 0]
  simp [f32ToUsize]

/-- C1 witness. -/
theorem c1_slice_floor_witness :
    (0 : ℕ) < [(3 : ℚ)/4].length ∧
      (infer_outputs 2 [(3 : ℚ)/4] 1 [1, 2, 3, 4]).1.getD 0 [] =
        ([(1 : ℚ), 2, 3, 4].drop (0 * ([(1 : ℚ), 2, 3, 4].length / [(3 : ℚ)/4].length))).take
          (min (Int.toNat ⌊(2 : ℚ) * ([(3 : ℚ)/4].getD 0 0 / 1)⌋)
            ([(1 : ℚ), 2, 3, 4].length / [(3 : ℚ)/4].length)) :=
  ⟨by decide, c1_slice_floor 2 [(3 : ℚ)/4] 1 [1, 2, 3, 4] 0 (by decide)⟩

-- ============================================================================
-- Tensor indexing lemmas
-- ============================================================================

theorem Array3.ofFn_d1 (d1 d2 d3 : ℕ) (f : ℕ → ℕ → ℕ → ℚ) :
    (Array3.ofFn d1 d2 d3 f).d1 = d1 := rfl

theorem Array3.ofFn_d2 (d1 d2 d3 : ℕ) (f : ℕ → ℕ → ℕ → ℚ) :
    (Array3.ofFn d1 d2 d3 f).d2 = d2 := rfl

theorem Array3.ofFn_d3 (d1 d2 d3 : ℕ) (f : ℕ → ℕ → ℕ → ℚ) :
    (Array3.ofFn d1 d2 d3 f).d3 = d3 := rfl

theorem Array3.get_ofFn (d1 d2 d3 : ℕ) (f : ℕ → ℕ → ℕ → ℚ) (i j k : ℕ)
    (hi : i < d1) (hj : j < d2) (hk : k < d3) :
    (Array3.ofFn d1 d2 d3 f).get i j k = f i j k := by
  have hd3 : 0 < d3 := lt_of_le_of_lt (Nat.zero_le k) hk
  have hd23 : 0 < d2 * d3 := Nat.mul_pos (lt_of_le_of_lt (Nat.zero_le j) hj) hd3
  have hr : j * d3 + k < d2 * d3 := by
    calc j * d3 + k < j * d3 + d3 := by omega
      _ = (j + 1) * d3 := by ring
      _ ≤ d2 * d3 := Nat.mul_le_mul_right d3 (Nat.succ_le_of_lt hj)
  have hidx : (i * d2 + j) * d3 + k < d1 * d2 * d3 := by
    have h1 : (i * d2 + j) * d3 + k = i * (d2 * d3) + (j * d3 + k) := by ring
    have h2 : d1 * d2 * d3 = d1 * (d2 * d3) := by ring
    rw [h1, h2]
    calc i * (d2 * d3) + (j * d3 + k) < i * (d2 * d3) + d2 * d3 := by omega
      _ = (i + 1) * (d2 * d3) := by ring
      _ ≤ d1 * (d2 * d3) := Nat.mul_le_mul_right _ (Nat.succ_le_of_lt hi)
  have e1 : ((i * d2 + j) * d3 + k) / (d2 * d3) = i := by
    have h1 : (i * d2 + j) * d3 + k = (d2 * d3) * i + (j * d3 + k) := by ring
    rw [h1, Nat.mul_add_div hd23, Nat.div_eq_of_lt hr, add_zero]
  have e2 : ((i * d2 + j) * d3 + k) / d3 % d2 = j := by
    have h1 : (i * d2 + j) * d3 + k = d3 * (i * d2 + j) + k := by ring
    rw [h1, Nat.mul_add_div hd3, Nat.div_eq_of_lt hk, add_zero]
    have h2 : i * d2 + j = d2 * i + j := by ring
    rw [h2, Nat.mul_add_mod, Nat.mod_eq_of_lt hj]
  have e3 : ((i * d2 + j) * d3 + k) % d3 = k := by
    have h1 : (i * d2 + j) * d3 + k = d3 * (i * d2 + j) + k := by ring
    rw [h1, Nat.mul_add_mod, Nat.mod_eq_of_lt hk]
  unfold Array3.ofFn Array3.get
  rw [List.getD_eq_getElem?_getD, List.getElem?_map,
    List.getElem?_range (by simpa using hidx)]
  simp only [Option.map_some', Option.getD_some]
  rw [e1, e2, e3]

theorem length_to_mask_get (lengths : List ℕ) (maxLen i j : ℕ)
    (hi : i < lengths.length) (hj : j < maxLen) :
    (length_to_mask lengths (some maxLen)).get i 0 j =
      if j < min (lengths.getD i 0) maxLen then 1 else 0 := by
  unfold length_to_mask
  simp only [Option.getD_some]
  exact Array3.get_ofFn _ _ _ _ i 0 j hi (by norm_num) hj

-- ============================================================================
-- Monotone fold-max lemmas
-- ============================================================================

theorem f32ToUsize_mono {a b : ℚ} (h : a ≤ b) : f32ToUsize a ≤ f32ToUsize b := by
  unfold f32ToUsize
  exact Int.toNat_le_toNat (Int.floor_le_floor h)

theorem g_foldl_max (g : ℚ → ℕ) (hg : ∀ a b : ℚ, a ≤ b → g a ≤ g b) :
    ∀ (l : List ℚ) (a : ℚ),
      g (l.foldl (fun x y => max x y) a) = (l.map g).foldl max (g a) := by
  intro l
  induction l with
  | nil => intro a; rfl
  | cons x xs ih =>
    intro a
    simp only [List.foldl_cons, List.map_cons]
    rw [ih (max a x)]
    congr 1
    rcases le_total a x with h | h
    · rw [max_eq_right h, max_eq_right (hg _ _ h)]
    · rw [max_eq_left h, max_eq_left (hg _ _ h)]

theorem foldl_max_eq_foldr (l : List ℕ) : ∀ a : ℕ, l.foldl max a = max a (l.foldr max 0) := by
  induction l with
  | nil => intro a; simp
  | cons x xs ih =>
    intro a
    simp only [List.foldl_cons, List.foldr_cons]
    rw [ih (max a x), max_assoc]

theorem ceilDivNat_mono {a b c : ℕ} (h : a ≤ b) : ceilDivNat a c ≤ ceilDivNat b c := by
  unfold ceilDivNat
  exact Nat.div_le_div_right (by omega)

theorem i32ToUsize_eq_toNat {n : ℤ} (h0 : 0 ≤ n) (h1 : n < 2 ^ 64) : i32ToUsize n = n.toNat := by
  unfold i32ToUsize
  rw [Int.emod_eq_of_lt h0 h1]

/-- `ceilDivNat` really is the ceiling of the rational quotient — the
reading the specification gives to `(x + chunk - 1) / chunk`. -/
theorem ceilDivNat_eq_ceil (a b : ℕ) (hb : 0 < b) :
    (ceilDivNat a b : ℤ) = ⌈(a : ℚ) / (b : ℚ)⌉ := by
  unfold ceilDivNat
  have hbq : (0 : ℚ) < (b : ℚ) := by exact_mod_cast hb
  have key := Nat.div_add_mod (a + b - 1) b
  have hr : (a + b - 1) % b < b := Nat.mod_lt _ hb
  have ineq1 : a ≤ b * ((a + b - 1) / b) := by omega
  have ineq2 : b * ((a + b - 1) / b) < a + b := by omega
  have ineq1' : a ≤ (a + b - 1) / b * b := by rw [Nat.mul_comm] at ineq1; exact ineq1
  have ineq2' : (a + b - 1) / b * b < a + b := by rw [Nat.mul_comm] at ineq2; exact ineq2
  refine (Int.ceil_eq_iff).mpr ⟨?_, ?_⟩ |>.symm
  · rw [sub_lt_iff_lt_add]
    have hdiv : ((a : ℚ) + b) / b = a / b + 1 := by field_simp
    rw [← hdiv, lt_div_iff₀ hbq]
    have h2 : ((a + b - 1) / b : ℕ) * (b : ℚ) < (a : ℚ) + b := by exact_mod_cast ineq2'
    rw [Int.cast_natCast]
    exact h2
  · rw [div_le_iff₀ hbq]
    have h1 : (a : ℚ) ≤ ((a + b - 1) / b : ℕ) * (b : ℚ) := by exact_mod_cast ineq1'
    rw [Int.cast_natCast]
    exact h1

-- ============================================================================
-- Claim C2: sample_noisy_latent sizing, mask, and masked noise
-- ============================================================================

theorem length_to_mask_d1 (l : List ℕ) (m : ℕ) :
    (length_to_mask l (some m)).d1 = l.length := rfl

theorem length_to_mask_d2 (l : List ℕ) (m : ℕ) :
    (length_to_mask l (some m)).d2 = 1 := rfl

theorem length_to_mask_d3 (l : List ℕ) (m : ℕ) :
    (length_to_mask l (some m)).d3 = m := rfl

/-- `sample_noisy_latent` with the let bindings unfolded (pure zeta
reduction). -/
theorem sample_noisy_latent_eq (duration : List ℚ)
    (sample_rate base_chunk_size chunk_compress latent_dim : ℤ) (noise : ℕ → ℕ → ℕ → ℚ) :
    sample_noisy_latent duration sample_rate base_chunk_size chunk_compress latent_dim noise =
      (Array3.ofFn duration.length (i32ToUsize (latent_dim * chunk_compress))
        ((f32ToUsize ((duration.foldl (fun a b => max a b) 0) * (sample_rate : ℚ)) +
            i32ToUsize (base_chunk_size * chunk_compress) - 1) /
          i32ToUsize (base_chunk_size * chunk_compress))
        (fun b d t => noise b d t *
          (length_to_mask
            ((duration.map (fun d => f32ToUsize (d * (sample_rate : ℚ)))).map
              (fun len => (len + i32ToUsize (base_chunk_size * chunk_compress) - 1) /
                i32ToUsize (base_chunk_size * chunk_compress)))
            (some ((f32ToUsize ((duration.foldl (fun a b => max a b) 0) * (sample_rate : ℚ)) +
                i32ToUsize (base_chunk_size * chunk_compress) - 1) /
              i32ToUsize (base_chunk_size * chunk_compress)))).get b 0 t),
      length_to_mask
        ((duration.map (fun d => f32ToUsize (d * (sample_rate : ℚ)))).map
          (fun len => (len + i32ToUsize (base_chunk_size * chunk_compress) - 1) /
            i32ToUsize (base_chunk_size * chunk_compress)))
        (some ((f32ToUsize ((duration.foldl (fun a b => max a b) 0) * (sample_rate : ℚ)) +
            i32ToUsize (base_chunk_size * chunk_compress) - 1) /
          i32ToUsize (base_chunk_size * chunk_compress)))) := rfl

theorem fold_max_counts (duration : List ℚ) (sample_rate : ℤ) (hsr : 0 ≤ sample_rate) :
    f32ToUsize ((duration.foldl (fun a b => max a b) 0) * (sample_rate : ℚ)) =
      (sampleCounts duration sample_rate).foldr max 0 := by
  have hg : ∀ a b : ℚ, a ≤ b →
      (fun q => f32ToUsize (q * (sample_rate : ℚ))) a ≤
        (fun q => f32ToUsize (q * (sample_rate : ℚ))) b := by
    intro a b h
    exact f32ToUsize_mono (mul_le_mul_of_nonneg_right h (by exact_mod_cast hsr))
  have hfold := g_foldl_max (fun q => f32ToUsize (q * (sample_rate : ℚ))) hg duration 0
  simp only at hfold
  rw [hfold]
  have hg0 : f32ToUsize (0 * (sample_rate : ℚ)) = 0 := by
    rw [zero_mul]
    unfold f32ToUsize
    rw [Int.floor_zero]
    rfl
  rw [hg0, foldl_max_eq_foldr]
  unfold sampleCounts
  omega

/-- C2 (amended).  For every non-empty duration vector (with a
non-negative sample rate and a positive, in-range chunk size product),
`sample_noisy_latent` computes per-item sample counts as
`⌊duration_i × sample_rate⌋` (truncation toward zero — not rounding), sets
the mask's time extent to `T = ceil(max(sample_counts) / chunk_size)` with
`chunk_size = base_chunk_size × chunk_compress_factor`, the mask is 1.0
exactly at `t < ceil(sample_count_i / chunk_size)` and 0.0 elsewhere, and
the returned noise tensor is exactly 0.0 wherever the mask is 0.0. -/
theorem c2_sample_noisy_latent_floor (duration : List ℚ)
    (sample_rate base_chunk_size chunk_compress latent_dim : ℤ) (noise : ℕ → ℕ → ℕ → ℚ)
    (hne : duration ≠ []) (hsr : 0 ≤ sample_rate)
    (hcs : 0 < base_chunk_size * chunk_compress)
    (hcs2 : base_chunk_size * chunk_compress < 2 ^ 63) :
    ((sample_noisy_latent duration sample_rate base_chunk_size chunk_compress latent_dim
        noise).2.d1 = duration.length ∧
      (sample_noisy_latent duration sample_rate base_chunk_size chunk_compress latent_dim
        noise).2.d2 = 1 ∧
      (sample_noisy_latent duration sample_rate base_chunk_size chunk_compress latent_dim
        noise).2.d3 = latentT duration sample_rate base_chunk_size chunk_compress) ∧
    (∀ i < duration.length,
      ∀ t < latentT duration sample_rate base_chunk_size chunk_compress,
        (sample_noisy_latent duration sample_rate base_chunk_size chunk_compress latent_dim
          noise).2.get i 0 t =
          if t < ceilDivNat ((sampleCounts duration sample_rate).getD i 0)
              (chunkSize base_chunk_size chunk_compress) then 1 else 0) ∧
    (∀ b < duration.length,
      ∀ d' < i32ToUsize (latent_dim * chunk_compress),
      ∀ t < latentT duration sample_rate base_chunk_size chunk_compress,
        (sample_noisy_latent duration sample_rate base_chunk_size chunk_compress latent_dim
          noise).2.get b 0 t = 0 →
        (sample_noisy_latent duration sample_rate base_chunk_size chunk_compress latent_dim
          noise).1.get b d' t = 0) := by
  have hcseq : i32ToUsize (base_chunk_size * chunk_compress) =
      chunkSize base_chunk_size chunk_compress := by
    unfold chunkSize
    exact i32ToUsize_eq_toNat hcs.le (lt_trans hcs2 (by norm_num))
  have hmax := fold_max_counts duration sample_rate hsr
  have hT : (f32ToUsize ((duration.foldl (fun a b => max a b) 0) * (sample_rate : ℚ)) +
      i32ToUsize (base_chunk_size * chunk_compress) - 1) /
        i32ToUsize (base_chunk_size * chunk_compress) =
      latentT duration sample_rate base_chunk_size chunk_compress := by
    rw [hcseq, hmax]
    rfl
  have hlen : ((duration.map (fun d => f32ToUsize (d * (sample_rate : ℚ)))).map
      (fun len => (len + i32ToUsize (base_chunk_size * chunk_compress) - 1) /
        i32ToUsize (base_chunk_size * chunk_compress))).length = duration.length := by
    simp
  rw [sample_noisy_latent_eq]
  refine ⟨⟨?_, rfl, ?_⟩, ?_, ?_⟩
  · rw [length_to_mask_d1, hlen]
  · rw [length_to_mask_d3, hT]
  · intro i hi t ht
    rw [length_to_mask_get _ _ _ _ (by rw [hlen]; exact hi) (by rw [hT]; exact ht)]
    have hgetd : ((duration.map (fun d => f32ToUsize (d * (sample_rate : ℚ)))).map
        (fun len => (len + i32ToUsize (base_chunk_size * chunk_compress) - 1) /
          i32ToUsize (base_chunk_size * chunk_compress))).getD i 0 =
        ceilDivNat ((sampleCounts duration sample_rate).getD i 0)
          (chunkSize base_chunk_size chunk_compress) := by
      rw [getD_map_lt _ _ i (by simpa using hi) _ 0, hcseq]
      rfl
    rw [hgetd]
    have hmin : min (ceilDivNat ((sampleCounts duration sample_rate).getD i 0)
        (chunkSize base_chunk_size chunk_compress))
        ((f32ToUsize ((duration.foldl (fun a b => max a b) 0) * (sample_rate : ℚ)) +
          i32ToUsize (base_chunk_size * chunk_compress) - 1) /
          i32ToUsize (base_chunk_size * chunk_compress)) =
        ceilDivNat ((sampleCounts duration sample_rate).getD i 0)
          (chunkSize base_chunk_size chunk_compress) := by
      apply Nat.min_eq_left
      rw [hT]
      unfold latentT
      exact ceilDivNat_mono (getD_le_foldr_max _ _)
    rw [hmin]
  · intro b hb d' hd' t ht hmask
    rw [Array3.get_ofFn _ _ _ _ b d' t hb hd' (by rw [hT]; exact ht), hmask, mul_zero]

/-- C2, counterexample.  The claim computes sample counts by rounding;
the code truncates.  With one duration `3/4` and `sample_rate = 2`
(`chunk_size = 1`), the code's count is `⌊1.5⌋ = 1` giving a mask extent of
1, while the claimed `round`-based extent is `ceil(round(1.5)/1) = 2`. -/
theorem c2_round_sample_counts_refuted :
    (sample_noisy_latent [3/4] 2 1 1 1 (fun _ _ _ => 0)).2.d3 ≠
      ceilDivNat (([(3 : ℚ)/4].map (fun d => (round (d * (2 : ℚ))).toNat)).foldr max 0)
        ((1 * 1 : ℤ)).toNat := by
  have h1 : (sample_noisy_latent [3/4] 2 1 1 1 (fun _ _ _ => 0)).2.d3 = 1 := by
    rw [sample_noisy_latent_eq, length_to_mask_d3]
    have hfold : ([(3 : ℚ)/4].foldl (fun a b => max a b) 0) = 3/4 := by
      simp [List.foldl]
      norm_num
    have hf : f32ToUsize (([(3 : ℚ)/4].foldl (fun a b => max a b) 0) * ((2 : ℤ) : ℚ)) = 1 := by
      rw [hfold]
      unfold f32ToUsize
      norm_num
    rw [hf]
    rfl
  have h2 : ([(3 : ℚ)/4].map (fun d => (round (d * (2 : ℚ))).toNat)).foldr max 0 = 2 := by
    simp only [List.map, List.foldr]
    have hr : round ((3 : ℚ)/4 * 2) = 2 := by norm_num [round_eq]
    rw [hr]
    decide
  rw [h1, h2]
  decide

/-- C2 witness: the amended theorem at one duration `1/2`,
`sample_rate = 4`, `base_chunk_size = 2`, `chunk_compress_factor = 1`. -/
theorem c2_sample_noisy_latent_floor_witness :
    ([(1 : ℚ)/2] ≠ []) ∧ (0 : ℤ) ≤ 4 ∧ (0 : ℤ) < 2 * 1 ∧ (2 * 1 : ℤ) < 2 ^ 63 ∧
    (((sample_noisy_latent [(1 : ℚ)/2] 4 2 1 3 (fun _ _ _ => 1)).2.d1 = 1 ∧
      (sample_noisy_latent [(1 : ℚ)/2] 4 2 1 3 (fun _ _ _ => 1)).2.d2 = 1 ∧
      (sample_noisy_latent [(1 : ℚ)/2] 4 2 1 3 (fun _ _ _ => 1)).2.d3 =
        latentT [(1 : ℚ)/2] 4 2 1) ∧
    (∀ i < [(1 : ℚ)/2].length, ∀ t < latentT [(1 : ℚ)/2] 4 2 1,
      (sample_noisy_latent [(1 : ℚ)/2] 4 2 1 3 (fun _ _ _ => 1)).2.get i 0 t =
        if t < ceilDivNat ((sampleCounts [(1 : ℚ)/2] 4).getD i 0) (chunkSize 2 1)
        then 1 else 0) ∧
    (∀ b < [(1 : ℚ)/2].length, ∀ d' < i32ToUsize (3 * 1), ∀ t < latentT [(1 : ℚ)/2] 4 2 1,
      (sample_noisy_latent [(1 : ℚ)/2] 4 2 1 3 (fun _ _ _ => 1)).2.get b 0 t = 0 →
      (sample_noisy_latent [(1 : ℚ)/2] 4 2 1 3 (fun _ _ _ => 1)).1.get b d' t = 0)) := by
  refine ⟨by simp, by norm_num, by norm_num, by norm_num, ?_⟩
  have h := c2_sample_noisy_latent_floor [(1 : ℚ)/2] 4 2 1 3 (fun _ _ _ => 1)
    (by simp) (by norm_num) (by norm_num) (by norm_num)
  simpa using h

-- ============================================================================
-- Claim C4: the voice style loader and ShapeMismatch
-- ============================================================================

theorem fillFrom_length :
    ∀ (vs buf : List ℚ) (i : ℕ) (buf' : List ℚ),
      fillFrom buf i vs = some buf' → buf'.length = buf.length := by
  intro vs
  induction vs with
  | nil =>
    intro buf i buf' h
    rw [fillFrom] at h
    cases h
    rfl
  | cons v vs ih =>
    intro buf i buf' h
    rw [fillFrom] at h
    by_cases hlt : i < buf.length
    · rw [if_pos hlt] at h
      have := ih _ _ _ h
      rw [this, List.length_set]
    · rw [if_neg hlt] at h
      cases h

theorem fillSources_ok_lengths (parse : List ℕ → Except Unit VoiceStyleData) (a b : ℕ) :
    ∀ (bl : List (List ℕ)) (i : ℕ) (tf df tf' df' : List ℚ),
      fillSources parse a b i bl tf df = .ok tf' df' →
      tf'.length = tf.length ∧ df'.length = df.length := by
  intro bl
  induction bl with
  | nil =>
    intro i tf df tf' df' h
    rw [fillSources] at h
    cases h
    exact ⟨rfl, rfl⟩
  | cons bs rest ih =>
    intro i tf df tf' df' h
    rw [fillSources] at h
    cases hp : parse bs with
    | error e => simp only [hp] at h; exact FillOut.noConfusion h
    | ok d =>
      simp only [hp] at h
      cases ht : fillFrom tf (i * a) (flattenComp d.style_ttl) with
      | none => simp only [ht] at h; exact FillOut.noConfusion h
      | some tf2 =>
        simp only [ht] at h
        cases hd : fillFrom df (i * b) (flattenComp d.style_dp) with
        | none => simp only [hd] at h; exact FillOut.noConfusion h
        | some df2 =>
          simp only [hd] at h
          obtain ⟨h1, h2⟩ := ih (i + 1) tf2 df2 tf' df' h
          exact ⟨h1.trans (fillFrom_length _ _ _ _ ht), h2.trans (fillFrom_length _ _ _ _ hd)⟩

theorem fillSources_err_serialization (parse : List ℕ → Except Unit VoiceStyleData) (a b : ℕ) :
    ∀ (bl : List (List ℕ)) (i : ℕ) (tf df : List ℚ) (e : SupertonicError),
      fillSources parse a b i bl tf df = .err e → e = .serialization := by
  intro bl
  induction bl with
  | nil =>
    intro i tf df e h
    rw [fillSources] at h
    cases h
  | cons bs rest ih =>
    intro i tf df e h
    rw [fillSources] at h
    cases hp : parse bs with
    | error e2 =>
      simp only [hp] at h
      cases h
      rfl
    | ok d =>
      simp only [hp] at h
      cases ht : fillFrom tf (i * a) (flattenComp d.style_ttl) with
      | none => simp only [ht] at h; exact FillOut.noConfusion h
      | some tf2 =>
        simp only [ht] at h
        cases hd : fillFrom df (i * b) (flattenComp d.style_dp) with
        | none => simp only [hd] at h; exact FillOut.noConfusion h
        | some df2 =>
          simp only [hd] at h
          exact ih (i + 1) tf2 df2 e h

/-- `load_voice_style_from_bytes` with its let bindings unfolded (pure
zeta reduction). -/
theorem load_voice_style_from_bytes_eq (parse : List ℕ → Except Unit VoiceStyleData)
    (bytes_list : List (List ℕ)) :
    load_voice_style_from_bytes parse bytes_list =
      if bytes_list.length = 0 then .err (.validation "No voice style bytes provided")
      else
        match bytes_list.head? with
        | none => .panic
        | some first_bytes =>
          match parse first_bytes with
          | .error _ => .err .serialization
          | .ok first_data =>
            match first_data.style_ttl.dims.get? 1, first_data.style_ttl.dims.get? 2,
                first_data.style_dp.dims.get? 1, first_data.style_dp.dims.get? 2 with
            | some ttl_dim1, some ttl_dim2, some dp_dim1, some dp_dim2 =>
              match fillSources parse (ttl_dim1 * ttl_dim2) (dp_dim1 * dp_dim2) 0 bytes_list
                  (List.replicate (bytes_list.length * ttl_dim1 * ttl_dim2) (0 : ℚ))
                  (List.replicate (bytes_list.length * dp_dim1 * dp_dim2) (0 : ℚ)) with
              | .panic => .panic
              | .err e => .err e
              | .ok ttl_flat2 dp_flat2 =>
                if ttl_flat2.length = bytes_list.length * ttl_dim1 * ttl_dim2 then
                  if dp_flat2.length = bytes_list.length * dp_dim1 * dp_dim2 then
                    .ok ⟨⟨bytes_list.length, ttl_dim1, ttl_dim2, ttl_flat2⟩,
                         ⟨bytes_list.length, dp_dim1, dp_dim2, dp_flat2⟩⟩
                  else .err (.shapeMismatch [bytes_list.length, dp_dim1, dp_dim2] [])
                else .err (.shapeMismatch [bytes_list.length, ttl_dim1, ttl_dim2] [])
            | _, _, _, _ => .panic := rfl

/-- C4 (amended).  The loader never fails with `ShapeMismatch`: the flat
buffers are pre-allocated at exactly the length the final shape check
(`Array3::from_shape_vec`) demands, and the fill loop preserves the buffer
length, so the check can never fire.  A source whose flattened data
underfills its slot silently succeeds zero-padded (see the counterexample);
an over-long source panics on an out-of-range write instead. -/
theorem c4_never_shape_mismatch (parse : List ℕ → Except Unit VoiceStyleData)
    (bytes_list : List (List ℕ)) :
    (load_voice_style_from_bytes parse bytes_list).isShapeMismatch = false := by
  rw [load_voice_style_from_bytes_eq]
  split
  · rfl
  · split
    · rfl
    · split
      · rfl
      · split
        · split
          · rfl
          · rename_i e heq
            rw [fillSources_err_serialization _ _ _ _ _ _ _ _ heq]
            rfl
          · rename_i tf2 df2 heq
            obtain ⟨hl1, hl2⟩ := fillSources_ok_lengths _ _ _ _ _ _ _ _ _ heq
            rw [if_pos (by rw [hl1, List.length_replicate]),
              if_pos (by rw [hl2, List.length_replicate])]
            rfl
        · rfl

/-- C4, counterexample.  A single source whose flattened `style_ttl` data
(one value) cannot fill the expected volume `dims[1] × dims[2] = 2`
makes the loader succeed (zero-padding the slot) instead of failing with
`ShapeMismatch` as the claim requires. -/
theorem c4_underfill_succeeds :
    (load_voice_style_from_bytes c4ParseStub [[0]]).isOk = true ∧
      (flattenComp (StyleComponent.mk [[[5]]] [1, 1, 2] "float32")).length ≠ 1 * 2 := by
  constructor
  · rfl
  · decide

-- ============================================================================
-- Claim C5: file-path loading delegates to byte loading
-- ============================================================================

theorem readAll_eq (fsRead : String → Option (List ℕ)) :
    ∀ (paths : List String) (buffers : List (List ℕ)),
      paths.length = buffers.length →
      (∀ pr ∈ paths.zip buffers, fsRead pr.1 = some pr.2) →
      readAll fsRead paths = some buffers := by
  intro paths
  induction paths with
  | nil =>
    intro buffers hlen _
    cases buffers with
    | nil => rfl
    | cons b bs => simp at hlen
  | cons p ps ih =>
    intro buffers hlen hread
    cases buffers with
    | nil => simp at hlen
    | cons b bs =>
      rw [readAll]
      rw [hread (p, b) (by simp)]
      rw [ih bs (by simpa using hlen) (fun pr hpr => hread pr (by simp [hpr]))]

/-- C5.  `load_voice_style` reads every file and hands the byte buffers to
`load_voice_style_from_bytes`, so on a file system whose contents at the
given paths equal the given buffers the two produce identical results —
the same stacked tensors on success (bit-identical element lists) and the
same failure otherwise. -/
theorem c5_paths_bytes_agree (fsRead : String → Option (List ℕ))
    (parse : List ℕ → Except Unit VoiceStyleData)
    (paths : List String) (buffers : List (List ℕ))
    (hlen : paths.length = buffers.length)
    (hread : ∀ pr ∈ paths.zip buffers, fsRead pr.1 = some pr.2) :
    load_voice_style fsRead parse paths = load_voice_style_from_bytes parse buffers := by
  unfold load_voice_style
  rw [readAll_eq fsRead paths buffers hlen hread]

/-- C5 witness: one path, one buffer, a file system that returns exactly
that buffer. -/
theorem c5_paths_bytes_agree_witness :
    (["p"] : List String).length = ([[1]] : List (List ℕ)).length ∧
      (∀ pr ∈ (["p"] : List String).zip ([[1]] : List (List ℕ)),
        (fun _ : String => some ([1] : List ℕ)) pr.1 = some pr.2) ∧
      load_voice_style (fun _ => some [1]) (fun _ => .error ()) ["p"] =
        load_voice_style_from_bytes (fun _ => .error ()) [[1]] :=
  ⟨by decide, by decide, c5_paths_bytes_agree _ _ _ _ (by decide) (by decide)⟩

-- ============================================================================
-- Claim C8: tokenizer id rows and text mask
-- ============================================================================

/-- `UnicodeProcessor.call` with the let bindings unfolded (pure zeta
reduction). -/
theorem unicodeProcessor_call_eq (up : UnicodeProcessor) (text_list : List String) :
    up.call text_list =
      ((text_list.map (fun t => preprocessList t.data)).map (fun t =>
        (List.range
            (((text_list.map (fun t => preprocessList t.data)).map List.length).foldr max 0)).map
          (fun j =>
            match (text_to_unicode_values t).get? j with
            | some v => if v < up.indexer.length then up.indexer.getD v 0 else -1
            | none => 0)),
      get_text_mask ((text_list.map (fun t => preprocessList t.data)).map List.length)) := rfl

theorem text_to_unicode_values_get?_lt (l : List Char) (j : ℕ) (hj : j < l.length) :
    (text_to_unicode_values l).get? j = some ((l.getD j default).toNat) := by
  unfold text_to_unicode_values
  rw [List.get?_eq_getElem?, List.getElem?_map, List.getElem?_eq_getElem hj]
  simp [List.getD_eq_getElem?_getD, List.getElem?_eq_getElem hj]

theorem text_to_unicode_values_get?_ge (l : List Char) (j : ℕ) (hj : l.length ≤ j) :
    (text_to_unicode_values l).get? j = none := by
  unfold text_to_unicode_values
  rw [List.get?_eq_getElem?, List.getElem?_map, List.getElem?_eq_none]
  · rfl
  · simpa using hj

/-- C8.  For a non-empty chunk list, row `i` of the tokenizer output
holds, at each position `j` below the normalized character count of chunk
`i`, `indexer[code_point]` when the code point is below the table length
and `-1` otherwise; every position at or beyond that count holds `0`; and
the mask row is `1.0` exactly at the positions below the count. -/
theorem c8_tokenizer_rows (up : UnicodeProcessor) (text_list : List String)
    (hne : text_list ≠ []) (i : ℕ) (hi : i < text_list.length) :
    (∀ j < (preprocessList (text_list.getD i "").data).length,
      ((up.call text_list).1.getD i []).getD j 0 =
        if ((preprocessList (text_list.getD i "").data).getD j default).toNat <
            up.indexer.length
        then up.indexer.getD ((preprocessList (text_list.getD i "").data).getD j default).toNat 0
        else -1) ∧
    (∀ j, (preprocessList (text_list.getD i "").data).length ≤ j →
      ((up.call text_list).1.getD i []).getD j 0 = 0) ∧
    (∀ j < ((text_list.map (fun t => preprocessList t.data)).map List.length).foldr max 0,
      (up.call text_list).2.get i 0 j =
        if j < (preprocessList (text_list.getD i "").data).length then 1 else 0) := by
  rw [unicodeProcessor_call_eq]
  have hplen : (text_list.map (fun t => preprocessList t.data)).length = text_list.length := by
    simp
  have hrow : ((text_list.map (fun t => preprocessList t.data)).map (fun t =>
      (List.range
          (((text_list.map (fun t => preprocessList t.data)).map List.length).foldr max 0)).map
        (fun j =>
          match (text_to_unicode_values t).get? j with
          | some v => if v < up.indexer.length then up.indexer.getD v 0 else -1
          | none => 0))).getD i [] =
      (List.range
          (((text_list.map (fun t => preprocessList t.data)).map List.length).foldr max 0)).map
        (fun j =>
          match (text_to_unicode_values (preprocessList (text_list.getD i "").data)).get? j with
          | some v => if v < up.indexer.length then up.indexer.getD v 0 else -1
          | none => 0) := by
    rw [getD_map_lt _ _ i (by rw [hplen]; exact hi) _ []]
    rw [getD_map_lt _ _ i hi _ ""]
  have hlen_le : (preprocessList (text_list.getD i "").data).length ≤
      ((text_list.map (fun t => preprocessList t.data)).map List.length).foldr max 0 := by
    have hgd : ((text_list.map (fun t => preprocessList t.data)).map List.length).getD i 0 =
        (preprocessList (text_list.getD i "").data).length := by
      rw [getD_map_lt _ _ i (by rw [hplen]; exact hi) _ []]
      rw [getD_map_lt _ _ i hi _ ""]
    rw [← hgd]
    exact getD_le_foldr_max _ _
  refine ⟨?_, ?_, ?_⟩
  · intro j hj
    rw [hrow]
    rw [getD_map_lt _ _ j (by simpa using lt_of_lt_of_le hj hlen_le) _ 0]
    rw [getD_range _ j (lt_of_lt_of_le hj hlen_le)]
    rw [text_to_unicode_values_get?_lt _ j hj]
  · intro j hj
    rw [hrow]
    by_cases hjm : j <
        ((text_list.map (fun t => preprocessList t.data)).map List.length).foldr max 0
    · rw [getD_map_lt _ _ j (by simpa using hjm) _ 0]
      rw [getD_range _ j hjm]
      rw [text_to_unicode_values_get?_ge _ j hj]
    · rw [List.getD_eq_default]
      simpa using hjm
  · intro j hj
    unfold get_text_mask
    rw [length_to_mask_get _ _ _ _ (by rw [List.length_map, hplen]; exact hi) hj]
    have hgd : ((text_list.map (fun t => preprocessList t.data)).map List.length).getD i 0 =
        (preprocessList (text_list.getD i "").data).length := by
      rw [getD_map_lt _ _ i (by rw [hplen]; exact hi) _ []]
      rw [getD_map_lt _ _ i hi _ ""]
    rw [hgd, Nat.min_eq_left hlen_le]

set_option maxHeartbeats 1000000 in
/-- C8 witness: a two-character table and the singleton batch `["a"]`
(which normalizes to `"a."`, both of whose code points exceed the table
length and map to `-1`). -/
theorem c8_tokenizer_rows_witness :
    ((["a"] : List String) ≠ []) ∧ (0 : ℕ) < (["a"] : List String).length ∧
    ((∀ j < (preprocessList (("a" : String)).data).length,
      (((UnicodeProcessor.mk [3, 4]).call ["a"]).1.getD 0 []).getD j 0 =
        if ((preprocessList (["a"].getD 0 "").data).getD j default).toNat <
            ([3, 4] : List ℤ).length
        then ([3, 4] : List ℤ).getD ((preprocessList (["a"].getD 0 "").data).getD j default).toNat 0
        else -1)) := by
  refine ⟨by decide, by decide, ?_⟩
  have h := (c8_tokenizer_rows (UnicodeProcessor.mk [3, 4]) ["a"] (by decide) 0 (by decide)).1
  simpa using h

-- ============================================================================
-- Claim C9: single-utterance concatenation with inserted silence
-- ============================================================================

/-- `chunk_text` with its let bindings unfolded (pure zeta reduction). -/
theorem chunk_text_eq (text : String) (ml : Option ℕ) :
    chunk_text text ml =
      if trimChars text.data = [] then [""]
      else if (splitParas (trimChars text.data)).foldl
          (processPara (ml.getD MAX_CHUNK_LENGTH)) [] = [] then [""]
      else ((splitParas (trimChars text.data)).foldl
          (processPara (ml.getD MAX_CHUNK_LENGTH)) []).map String.mk := rfl

theorem chunk_text_ne_nil (text : String) (ml : Option ℕ) : chunk_text text ml ≠ [] := by
  rw [chunk_text_eq]
  split
  · simp
  · split
    · simp
    · rename_i h
      simpa using h

theorem tts_call_go_concat {ε : Type} (inferOne : String → Except ε (List ℚ × ℚ))
    (sample_rate : ℤ) (silence_duration : ℚ) :
    ∀ (chunks : List String) (results : List (List ℚ × ℚ)) (i : ℕ)
      (wav_cat : List ℚ) (dur_cat : ℚ),
      chunks.length = results.length →
      (∀ pr ∈ chunks.zip results, inferOne pr.1 = .ok pr.2) →
      i ≠ 0 →
      tts_call_go inferOne sample_rate silence_duration chunks i wav_cat dur_cat =
        .ok (wav_cat ++ (results.map (fun p =>
            List.replicate (f32ToUsize (silence_duration * (sample_rate : ℚ))) 0 ++
              p.1)).flatten,
          dur_cat + (results.map Prod.snd).sum + results.length * silence_duration) := by
  intro chunks
  induction chunks with
  | nil =>
    intro results i wav_cat dur_cat hlen hok hi
    cases results with
    | nil => simp [tts_call_go]
    | cons r rs => simp at hlen
  | cons c cs ih =>
    intro results i wav_cat dur_cat hlen hok hi
    cases results with
    | nil => simp at hlen
    | cons r rs =>
      rw [tts_call_go]
      rw [hok (c, r) (by simp)]
      simp only [if_neg hi]
      rw [ih rs (i + 1) _ _ (by simpa using hlen)
        (fun pr hpr => hok pr (by simp [hpr])) (by omega)]
      refine congrArg Except.ok ?_
      refine Prod.ext ?_ ?_
      · simp [List.append_assoc]
      · simp only [List.map_cons, List.foldr, List.length_cons, List.sum_cons]
        push_cast
        ring

/-- C9.  For a successful single-utterance call producing `n ≥ 1` chunks,
the returned waveform is the concatenation of the per-chunk waveforms in
chunk order with `⌊silence_duration × sample_rate⌋` zero samples inserted
between consecutive chunks and none before the first, and the returned
duration is the sum of the per-chunk durations plus
`(n - 1) × silence_duration`. -/
theorem c9_call_concatenation {ε : Type} (inferOne : String → Except ε (List ℚ × ℚ))
    (sample_rate : ℤ) (silence_duration : ℚ) (text : String)
    (results : List (List ℚ × ℚ))
    (hlen : (chunk_text text none).length = results.length)
    (hok : ∀ pr ∈ (chunk_text text none).zip results, inferOne pr.1 = .ok pr.2) :
    tts_call inferOne sample_rate silence_duration text =
      .ok ((results.headD ([], 0)).1 ++
          (results.tail.map (fun p =>
            List.replicate (f32ToUsize (silence_duration * (sample_rate : ℚ))) 0 ++
              p.1)).flatten,
        (results.map Prod.snd).sum + (results.length - 1 : ℕ) * silence_duration) := by
  unfold tts_call
  cases hch : chunk_text text none with
  | nil => exact absurd hch (chunk_text_ne_nil text none)
  | cons c cs =>
    rw [hch] at hlen hok
    cases results with
    | nil => simp at hlen
    | cons r rs =>
      rw [tts_call_go]
      rw [hok (c, r) (by simp)]
      simp only [if_pos rfl]
      rw [tts_call_go_concat inferOne sample_rate silence_duration cs rs 1 _ _
        (by simpa using hlen) (fun pr hpr => hok pr (by simp [hpr])) (by omega)]
      refine congrArg Except.ok ?_
      refine Prod.ext ?_ ?_
      · simp
      · simp only [List.map_cons, List.sum_cons, List.length_cons, List.headD, List.tail]
        push_cast
        ring

/-- C9 witness: a single-chunk text with a concrete inference oracle. -/
theorem c9_call_concatenation_witness :
    (chunk_text "Hi" none).length = ([([(1 : ℚ), 2], (5 : ℚ))]).length ∧
      (∀ pr ∈ (chunk_text "Hi" none).zip [([(1 : ℚ), 2], (5 : ℚ))],
        (fun _ : String => (Except.ok (([1, 2], 5) : List ℚ × ℚ) : Except Unit _)) pr.1 =
          .ok pr.2) ∧
      tts_call (fun _ : String => (Except.ok (([1, 2], 5) : List ℚ × ℚ) : Except Unit _))
          10 (3/10) "Hi" =
        .ok ((([([(1 : ℚ), 2], (5 : ℚ))]).headD ([], 0)).1 ++
            ((([([(1 : ℚ), 2], (5 : ℚ))]).tail).map (fun p =>
              List.replicate (f32ToUsize ((3 : ℚ)/10 * ((10 : ℤ) : ℚ))) 0 ++ p.1)).flatten,
          (([([(1 : ℚ), 2], (5 : ℚ))]).map Prod.snd).sum +
            ((([([(1 : ℚ), 2], (5 : ℚ))]).length - 1 : ℕ) : ℚ) * (3/10)) := by
  have hct : chunk_text "Hi" none = ["Hi"] := by decide
  have hok : ∀ pr ∈ (chunk_text "Hi" none).zip [(([(1 : ℚ), 2], (5 : ℚ)))],
      (fun _ : String => (Except.ok (([1, 2], 5) : List ℚ × ℚ) : Except Unit _)) pr.1 =
        .ok pr.2 := by
    intro pr hpr
    rw [hct] at hpr
    simp only [List.zip_cons_cons, List.zip_nil_right, List.mem_singleton] at hpr
    subst hpr
    rfl
  refine ⟨by rw [hct]; rfl, hok, ?_⟩
  exact c9_call_concatenation _ 10 (3/10) "Hi" [([1, 2], 5)] (by rw [hct]; rfl) hok

end Supertonic
